import Mathlib

/-!
Verification of the intelligent-mutation-prioritization core.

Shallow embedding of the data model (`src/core/models.py` — the `models.py`
shared by the repository's parallel copies), the multi-factor scorer
(`src/src/core/scoring/multi_factor_scorer.py`), the coverage mapper
(`src/src/core/subsumption/coverage_mapper.py`) and the subsumption analyzer
(`src/src/core/subsumption/analyzer.py`).

Modelling conventions:
- Python floats are modelled as exact rationals (`ℚ`); decimal literals such
  as `0.4` denote the exact decimal fraction.
- Python sets of test-name strings are `Finset String`.
- External collaborators of the scorer (the code analyzer, the history
  tracker, the bug-history table and the math library's `exp`) are bundled
  into an explicit environment `ScorerEnv`; the scorer is a pure function of
  that environment, exactly mirroring the attach/compute steps of the source.
- The MD5 hash used by the coverage mapper is modelled as an arbitrary
  function `String → ℕ`; every property proved about the mapper is proved
  for all such functions, hence in particular for MD5.
- Mutant fields never read by the scorer or the analyzer (`description`,
  `killing_tests`, `error_message`, `execution_time`, `created_at`) are
  omitted from the record.
-/

namespace Impt

/-- Mirrors `MutationOperator` in `core/models.py`. -/
inductive MutationOperator where
  | ARITHMETIC_REPLACEMENT
  | BOUNDARY_CONDITION
  | CONDITIONAL_REPLACEMENT
  | NEGATE_CONDITIONAL
  | RETURN_VALUE_REPLACEMENT
  | REMOVE_CONDITIONAL
  | VOID_METHOD_CALL
  | INCREMENT_DECREMENT
  | LOGICAL_OPERATOR
  | FRAMEWORK_SPECIFIC
  deriving DecidableEq, Fintype

/-- Mirrors `MutantStatus` in `core/models.py`. -/
inductive MutantStatus where
  | PENDING
  | RUNNING
  | KILLED
  | SURVIVED
  | TIMEOUT
  | ERROR
  deriving DecidableEq

/-- Mirrors `CodeLocation` in `core/models.py`. -/
structure CodeLocation where
  file_path : String
  line_start : ℕ
  line_end : ℕ
  column_start : ℕ
  column_end : ℕ
  deriving DecidableEq

/-- Mirrors `CodeMetrics` in `core/models.py` (all counters are naturals,
the two flags are booleans). -/
structure CodeMetrics where
  cyclomatic_complexity : ℕ := 0
  cognitive_complexity : ℕ := 0
  nesting_depth : ℕ := 0
  lines_of_code : ℕ := 0
  number_of_parameters : ℕ := 0
  is_public_api : Bool := false
  is_security_critical : Bool := false
  last_modified_days_ago : ℕ := 999
  deriving DecidableEq

/-- Mirrors `HistoricalData` in `core/models.py`. -/
structure HistoricalData where
  operator : MutationOperator
  times_generated : ℕ := 0
  times_killed : ℕ := 0
  times_survived : ℕ := 0
  average_detection_time : ℚ := 0
  deriving DecidableEq

/-- Mirrors the `HistoricalData.kill_rate` property: `killed/(killed+survived)`,
`0.5` when there are no observations. -/
def HistoricalData.kill_rate (h : HistoricalData) : ℚ :=
  let total := h.times_killed + h.times_survived
  if total = 0 then 0.5
  else (h.times_killed : ℚ) / (total : ℚ)

/-- Mirrors `Mutant` in `core/models.py` (fields never read by the scorer or
the subsumption analyzer are omitted). -/
structure Mutant where
  id : String
  framework_id : String
  location : CodeLocation
  operator : MutationOperator
  original_code : String
  mutated_code : String
  status : MutantStatus := .PENDING
  code_metrics : Option CodeMetrics := none
  historical_data : Option HistoricalData := none
  priority_score : ℚ := 0
  estimated_execution_time : ℚ := 3.0
  deriving DecidableEq

/-- Mirrors `CoverageMapper.compute_similarity`: Jaccard index with the two
emptiness guards and the `union > 0` guard of the source. -/
def compute_similarity (tests1 tests2 : Finset String) : ℚ :=
  if tests1 = ∅ ∧ tests2 = ∅ then 1.0
  else if tests1 = ∅ ∨ tests2 = ∅ then 0.0
  else
    let intersection := (tests1 ∩ tests2).card
    let union := (tests1 ∪ tests2).card
    if union > 0 then (intersection : ℚ) / (union : ℚ) else 0.0

/-- Mirrors `MultiFactorScorer._complexity_factor`: `0.5` without metrics,
otherwise the four min-capped components. -/
def complexity_factor (m : Mutant) : ℚ :=
  match m.code_metrics with
  | none => 0.5
  | some metrics =>
      0.4 * min ((metrics.cyclomatic_complexity : ℚ) / 20.0) 1.0 +
      0.3 * min ((metrics.cognitive_complexity : ℚ) / 30.0) 1.0 +
      0.2 * min ((metrics.nesting_depth : ℚ) / 5.0) 1.0 +
      0.1 * min ((metrics.number_of_parameters : ℚ) / 8.0) 1.0

/-- The `self.stats` counter dictionary of `SubsumptionAnalyzer`. -/
structure SubsumptionStats where
  total_input : ℕ := 0
  exact_duplicates : ℕ := 0
  coverage_subsumed : ℕ := 0
  operator_subsumed : ℕ := 0
  location_clustered : ℕ := 0
  total_output : ℕ := 0
  deriving DecidableEq

/-- The dictionary returned by `SubsumptionAnalyzer.get_statistics`: the six
counters plus the derived `reduction_percent` entry. -/
structure Statistics extends SubsumptionStats where
  reduction_percent : ℚ
  deriving DecidableEq

/-- Mirrors `SubsumptionAnalyzer.get_statistics`: the guarded conditional
expression `(1 - total_output/total_input) * 100 if total_input > 0 else 0`. -/
def get_statistics (s : SubsumptionStats) : Statistics :=
  ⟨s, if s.total_input > 0 then (1 - (s.total_output : ℚ) / (s.total_input : ℚ)) * 100 else 0⟩

/-! ### Concrete fixtures used by witnesses and counterexamples -/

/-- Fixture: a code location. -/
def mkLocation (file : String) (line col : ℕ) : CodeLocation :=
  { file_path := file, line_start := line, line_end := line,
    column_start := col, column_end := col }

/-- Fixture: a mutant with given identity, location and operator. -/
def mkMutant (i file : String) (line col : ℕ) (op : MutationOperator) : Mutant :=
  { id := i, framework_id := i, location := mkLocation file line col,
    operator := op, original_code := "a > b", mutated_code := "a >= b" }

/-- Fixture: maximal code metrics (every capped component saturates). -/
def bigMetrics : CodeMetrics :=
  { cyclomatic_complexity := 100, cognitive_complexity := 100,
    nesting_depth := 10, lines_of_code := 50, number_of_parameters := 10,
    is_public_api := true, is_security_critical := true,
    last_modified_days_ago := 0 }

/-- Fixture: a statistics state after a run that kept 60 of 100 mutants. -/
def statsRun : SubsumptionStats :=
  { total_input := 100, exact_duplicates := 10, coverage_subsumed := 10,
    operator_subsumed := 10, location_clustered := 10, total_output := 60 }

/-- Fixture: the initial statistics state (all counters zero). -/
def statsInit : SubsumptionStats := {}

/-! ### Multi-factor scorer (`multi_factor_scorer.py`) -/

/-- The five factor names of `MultiFactorScorer.WEIGHTS`. -/
inductive Factor where
  | historical
  | complexity
  | security
  | recency
  | bug_history
  deriving DecidableEq

/-- Mirrors `MultiFactorScorer.WEIGHTS`. -/
def WEIGHTS : Factor → ℚ
  | .historical => 0.30
  | .complexity => 0.25
  | .security => 0.20
  | .recency => 0.15
  | .bug_history => 0.10

/-- The scorer's external collaborators, bundled as an explicit environment:
`CodeAnalyzer.analyze_file`, `HistoryTracker.get_operator_history`,
`CodeAnalyzer.get_historical_bug_count`, and the math library's `exp`
(`rexp`), which the source calls in `_recency_factor`. -/
structure ScorerEnv where
  analyzeFile : String → CodeMetrics
  operatorHistory : MutationOperator → HistoricalData
  bugCount : String → ℕ
  rexp : ℚ → ℚ

/-- Mirrors `_precompute_metrics` for one mutant: attach the per-file code
metrics and the per-operator historical data. -/
def precompute_metrics (env : ScorerEnv) (m : Mutant) : Mutant :=
  { m with
    code_metrics := some (env.analyzeFile m.location.file_path),
    historical_data := some (env.operatorHistory m.operator) }

/-- Mirrors `_historical_factor`. -/
def historical_factor (m : Mutant) : ℚ :=
  match m.historical_data with
  | none => 0.5
  | some h => h.kill_rate

/-- Mirrors `_security_factor`. -/
def security_factor (m : Mutant) : ℚ :=
  match m.code_metrics with
  | none => 0.0
  | some cm =>
      if cm.is_security_critical then 1.0
      else if cm.is_public_api then 0.3
      else 0.0

/-- Mirrors `_recency_factor`: `exp(-days/10)` through the environment's
exponential. -/
def recency_factor (env : ScorerEnv) (m : Mutant) : ℚ :=
  match m.code_metrics with
  | none => 0.0
  | some cm => env.rexp (-(cm.last_modified_days_ago : ℚ) / 10.0)

/-- Mirrors `_bug_history_factor`: `min(bug_count/10, 1)`. -/
def bug_history_factor (env : ScorerEnv) (m : Mutant) : ℚ :=
  min ((env.bugCount m.location.file_path : ℚ) / 10.0) 1.0

/-- The raw factor table built at the top of `_compute_normalized_factors`. -/
def raw_factor (env : ScorerEnv) : Factor → Mutant → ℚ
  | .historical => historical_factor
  | .complexity => complexity_factor
  | .security => security_factor
  | .recency => recency_factor env
  | .bug_history => bug_history_factor env

/-- Python's `min` over a nonempty list (the source raises `ValueError` on an
empty batch; the empty case here is an arbitrary default). -/
def minList : List ℚ → ℚ
  | [] => 0
  | x :: xs => xs.foldl min x

/-- Python's `max` over a nonempty list (same caveat as `minList`). -/
def maxList : List ℚ → ℚ
  | [] => 0
  | x :: xs => xs.foldl max x

/-- The min-max scaling step of `_compute_normalized_factors`: every value
becomes `(v - min)/(max - min)`, or `0.5` for all when `max - min == 0`
(the source's `min_val`/`max_val` locals are inlined). -/
def normalize_values (values : List ℚ) : List ℚ :=
  if maxList values - minList values = 0 then values.map (fun _ => 0.5)
  else values.map (fun v => (v - minList values) / (maxList values - minList values))

/-- Mirrors `_compute_normalized_factors` per factor: the normalized value
list, aligned with the mutant list. -/
def compute_normalized_factors (env : ScorerEnv) (mutants : List Mutant)
    (f : Factor) : List ℚ :=
  normalize_values (mutants.map (raw_factor env f))

/-- The `result` dictionary of `_compute_normalized_factors`: association
list `mutant.id ↦ (factor ↦ normalized value)` in insertion order. -/
def normalized_dict (env : ScorerEnv) (mutants : List Mutant) :
    List (String × (Factor → ℚ)) :=
  mutants.enum.map
    (fun p => (p.2.id, fun f => (compute_normalized_factors env mutants f).getD p.1 0))

/-- Python dict access `normalized[mutant.id]`: the last insertion for a key
wins, hence lookup on the reversed association list. -/
def dict_get (d : List (String × (Factor → ℚ))) (i : String) : Factor → ℚ :=
  ((d.reverse).lookup i).getD (fun _ => 0)

/-- Mirrors `_calculate_weighted_score` (and the identical `_weighted_sum`):
weighted sum of the five factors, scaled by 10 to the 0–10 range. -/
def calculate_weighted_score (factors : Factor → ℚ) : ℚ :=
  (WEIGHTS .historical * factors .historical +
   WEIGHTS .complexity * factors .complexity +
   WEIGHTS .security * factors .security +
   WEIGHTS .recency * factors .recency +
   WEIGHTS .bug_history * factors .bug_history) * 10.0

/-- Mirrors `_weighted_sum` (standalone scoring); the source duplicates the
same formula it uses in `_calculate_weighted_score`. -/
def weighted_sum (factors : Factor → ℚ) : ℚ :=
  calculate_weighted_score factors

/-- The comparison of step 4 of `score_all`
(`sort(key=priority_score, reverse=True)`): descending by score. -/
def score_ge (a b : Mutant) : Prop :=
  b.priority_score ≤ a.priority_score

instance : DecidableRel score_ge :=
  fun _ _ => inferInstanceAs (Decidable (_ ≤ _))

/-- Mirrors `MultiFactorScorer.score_all`: attach metrics and history,
batch-normalize the five factors, attach the weighted scores, and sort
descending by score (Python's sort is stable, as is insertion sort). -/
def score_all (env : ScorerEnv) (mutants : List Mutant) : List Mutant :=
  let ms := mutants.map (precompute_metrics env)
  let d := normalized_dict env ms
  let scored := ms.map
    (fun m => { m with priority_score := calculate_weighted_score (dict_get d m.id) })
  List.insertionSort score_ge scored

/-- Mirrors `_compute_factors_single`. -/
def compute_factors_single (env : ScorerEnv) (m : Mutant) : Factor → ℚ :=
  fun f => raw_factor env f m

/-- Mirrors `score_single`: Python's `if context:` is falsy for both `None`
and `[]`, in which case the mutant is scored standalone from its raw factors;
otherwise the batch `[mutant] + context` is scored and the top score of the
sorted result is returned. -/
def score_single (env : ScorerEnv) (m : Mutant) (context : List Mutant) : ℚ :=
  match context with
  | [] => weighted_sum (compute_factors_single env (precompute_metrics env m))
  | _ :: _ => ((score_all env (m :: context)).map Mutant.priority_score).headI

/-- Fixture: an environment in which every factor saturates at its maximum:
kill rate 1, saturating metrics, security-critical file, modified today and
10 historical bugs.  The abstract exponential is the constant 1; on the one
point where this environment evaluates it, `-0/10 = 0`, the true `math.exp`
also returns exactly 1. -/
def envHot : ScorerEnv :=
  { analyzeFile := fun _ => bigMetrics,
    operatorHistory := fun op =>
      { operator := op, times_generated := 10, times_killed := 10,
        times_survived := 0, average_detection_time := 1 },
    bugCount := fun _ => 10,
    rexp := fun _ => 1 }

/-- Fixture: a single boundary-condition mutant. -/
def m0 : Mutant := mkMutant "m0" "f.py" 10 1 .BOUNDARY_CONDITION

instance : Inhabited Mutant := ⟨m0⟩

/-! ### Coverage mapper (`coverage_mapper.py`) -/

/-- The path sanitization inside `_generate_test_set`:
`file_path.replace('/', '_').replace('.', '_')`. -/
def sanitize_path (s : String) : String :=
  (s.replace "/" "_").replace "." "_"

/-- One synthetic test name, `f"test_{sanitized_path}_{test_hash}"`. -/
def test_name (file_path : String) (test_hash : ℕ) : String :=
  "test_" ++ sanitize_path file_path ++ "_" ++ Nat.repr test_hash

/-- The location string `f"{file_path}:{line_start}"`, used both as the
cache key of `_estimate_coverage` and as the MD5 input of
`_generate_test_set`. -/
def location_str (file_path : String) (line_start : ℕ) : String :=
  file_path ++ ":" ++ Nat.repr line_start

/-- Mirrors `_generate_test_set`, parameterized by the hash function
(`int(hashlib.md5(...).hexdigest(), 16)` in the source — every property is
proved for an arbitrary `hashFn`): the set of `3 + hash % 6` test names with
numeric suffixes `(hash + i) % 1000`. -/
def generate_test_set (hashFn : String → ℕ) (m : Mutant) : Finset String :=
  (Finset.range (3 + hashFn (location_str m.location.file_path m.location.line_start) % 6)).image
    (fun i => test_name m.location.file_path
      ((hashFn (location_str m.location.file_path m.location.line_start) + i) % 1000))

/-- Mirrors `_estimate_coverage` on a fresh cache.  The cache key equals the
generator's hash input, so a cached value always coincides with a fresh
generation; the mapping is therefore a pure function of the mutant's
location and the model elides the cache. -/
def estimate_coverage (hashFn : String → ℕ) (m : Mutant) : Finset String :=
  generate_test_set hashFn m

/-- Mirrors `CoverageMapper.map_mutant_coverage` for an arbitrary estimator
(the reference one is `estimate_coverage hashFn`): the association list
`mutant.id ↦ covering test set` in insertion order. -/
def map_mutant_coverage (estimator : Mutant → Finset String)
    (mutants : List Mutant) : List (String × Finset String) :=
  mutants.map (fun m => (m.id, estimator m))

/-- Python's `coverage_map.get(i, set())` (last insertion wins). -/
def coverage_of (d : List (String × Finset String)) (i : String) : Finset String :=
  ((d.reverse).lookup i).getD ∅

/-- Numeric value of a decimal digit character (left inverse of
`Nat.digitChar` on 0–9); used only to prove `Nat.repr` injective. -/
def digit_val (c : Char) : ℕ := c.toNat - 48

/-- Decimal decoding of a digit-character list; left inverse of
`Nat.toDigits 10`. -/
def decode_digits (l : List Char) : ℕ :=
  l.foldl (fun a c => 10 * a + digit_val c) 0

/-- Fixture: a negate-conditional mutant at the same file and line as `m0`
but a different column. -/
def m8 : Mutant := mkMutant "m8" "f.py" 10 7 .NEGATE_CONDITIONAL

/-! ### Subsumption analyzer (`analyzer.py`) -/

/-- Mirrors `SubsumptionAnalyzer.OPERATOR_SUBSUMPTIONS` (`dict.get` with an
empty-set default): the operators subsumed by a given operator. -/
def OPERATOR_SUBSUMPTIONS : MutationOperator → Finset MutationOperator
  | .ARITHMETIC_REPLACEMENT => {.INCREMENT_DECREMENT}
  | .BOUNDARY_CONDITION => {.NEGATE_CONDITIONAL}
  | .RETURN_VALUE_REPLACEMENT => {.VOID_METHOD_CALL}
  | _ => ∅

/-- The `arithmetic_ops` literal of `_are_operators_related`. -/
def arithmetic_ops : Finset MutationOperator :=
  {.ARITHMETIC_REPLACEMENT, .INCREMENT_DECREMENT}

/-- The `conditional_ops` literal of `_are_operators_related`. -/
def conditional_ops : Finset MutationOperator :=
  {.CONDITIONAL_REPLACEMENT, .NEGATE_CONDITIONAL, .REMOVE_CONDITIONAL, .BOUNDARY_CONDITION}

/-- Mirrors `_are_operators_related`. -/
def are_operators_related (op1 op2 : MutationOperator) : Bool :=
  if op1 = op2 then true
  else if op2 ∈ OPERATOR_SUBSUMPTIONS op1 then true
  else if op1 ∈ OPERATOR_SUBSUMPTIONS op2 then true
  else if op1 ∈ arithmetic_ops ∧ op2 ∈ arithmetic_ops then true
  else if op1 ∈ conditional_ops ∧ op2 ∈ conditional_ops then true
  else false

/-- Line-order comparison of `file_mutants.sort(key=line_start)`. -/
def line_le (a b : Mutant) : Prop :=
  a.location.line_start ≤ b.location.line_start

instance : DecidableRel line_le :=
  fun _ _ => inferInstanceAs (Decidable (_ ≤ _))

/-- Inner loop of `_apply_operator_subsumption` for a fixed `m1`: walk the
mutants after `m1` in line order; already-removed mutants are skipped with
`continue` (before the distance test), the scan `break`s at the first mutant
more than 5 lines away, and mutants whose operator `m1` subsumes are
removed. -/
def operator_scan (m1 : Mutant) : List Mutant → Finset String → Finset String
  | [], rem => rem
  | m2 :: rest, rem =>
      if m2.id ∈ rem then operator_scan m1 rest rem
      else if ((m2.location.line_start : ℤ) - (m1.location.line_start : ℤ)).natAbs > 5 then rem
      else if m2.operator ∈ OPERATOR_SUBSUMPTIONS m1.operator then
        operator_scan m1 rest (insert m2.id rem)
      else operator_scan m1 rest rem

/-- Outer loop of `_apply_operator_subsumption` over one file's mutants in
line order; `m1` entries that subsume nothing are skipped with `continue`
(removed `m1` are *not* skipped in this stage). -/
def operator_scan_file : List Mutant → Finset String → Finset String
  | [], rem => rem
  | m1 :: rest, rem =>
      if OPERATOR_SUBSUMPTIONS m1.operator = ∅ then operator_scan_file rest rem
      else operator_scan_file rest (operator_scan m1 rest rem)

/-- The key sequence of a `defaultdict(list)` grouping: first-occurrence
order. -/
def ordered_keys (l : List String) : List String :=
  l.foldl (fun acc f => if f ∈ acc then acc else acc ++ [f]) []

/-- The removal set accumulated by `_apply_operator_subsumption`: group by
file (in first-occurrence key order), sort each group by line (Python's sort
and insertion sort are both stable), and thread the removal set through the
groups. -/
def operator_rem (mutants : List Mutant) : Finset String :=
  (ordered_keys (mutants.map (fun m => m.location.file_path))).foldl
    (fun rem f =>
      operator_scan_file
        (List.insertionSort line_le
          (mutants.filter (fun m => m.location.file_path == f))) rem)
    ∅

/-- Mirrors `_apply_operator_subsumption`: filter the accumulated removal
set out of the input list. -/
def apply_operator_subsumption (mutants : List Mutant) : List Mutant :=
  mutants.filter (fun m => decide (m.id ∉ operator_rem mutants))

/-- The Jaccard similarity computed inline in `_apply_coverage_subsumption`:
`len(c1 & c2) / len(c1 | c2)`. -/
def jaccard (c1 c2 : Finset String) : ℚ :=
  ((c1 ∩ c2).card : ℚ) / ((c1 ∪ c2).card : ℚ)

/-- The removal test of `_apply_coverage_subsumption` for an ordered pair
`(m1, m2)`: related operators, `c1 ⊇ c2`, `c2` nonempty, and similarity at
least the threshold. -/
def coverage_check (thr : ℚ) (cov : String → Finset String) (m1 m2 : Mutant) : Prop :=
  are_operators_related m1.operator m2.operator = true ∧
  cov m2.id ⊆ cov m1.id ∧
  cov m2.id ≠ ∅ ∧
  thr ≤ jaccard (cov m1.id) (cov m2.id)

instance (thr : ℚ) (cov : String → Finset String) (m1 m2 : Mutant) :
    Decidable (coverage_check thr cov m1 m2) :=
  inferInstanceAs (Decidable (_ ∧ _ ∧ _ ∧ _))

/-- Inner loop of `_apply_coverage_subsumption` for a fixed surviving `m1`:
already-removed `m2` are skipped, and `m2` passing the removal test are
added to the removal set. -/
def coverage_scan (thr : ℚ) (cov : String → Finset String) (m1 : Mutant) :
    List Mutant → Finset String → Finset String
  | [], rem => rem
  | m2 :: rest, rem =>
      if m2.id ∈ rem then coverage_scan thr cov m1 rest rem
      else if coverage_check thr cov m1 m2 then
        coverage_scan thr cov m1 rest (insert m2.id rem)
      else coverage_scan thr cov m1 rest rem

/-- Outer loop of `_apply_coverage_subsumption`: removed `m1` are skipped
(`continue`), surviving `m1` scan the mutants after them. -/
def coverage_scan_all (thr : ℚ) (cov : String → Finset String) :
    List Mutant → Finset String → Finset String
  | [], rem => rem
  | m1 :: rest, rem =>
      if m1.id ∈ rem then coverage_scan_all thr cov rest rem
      else coverage_scan_all thr cov rest (coverage_scan thr cov m1 rest rem)

/-- Mirrors `_apply_coverage_subsumption` for an arbitrary injected coverage
estimator: build the coverage map of the input, run the quadratic pair scan,
and filter the removed ids out of the input list. -/
def apply_coverage_subsumption (thr : ℚ) (estimator : Mutant → Finset String)
    (mutants : List Mutant) : List Mutant :=
  mutants.filter (fun m => decide (m.id ∉
    coverage_scan_all thr (coverage_of (map_mutant_coverage estimator mutants)) mutants ∅))

/-- Fixture: a boundary-condition mutant two lines *after* a
negate-conditional mutant in the same file. -/
def mb6 : Mutant := mkMutant "b6" "g.py" 12 1 .BOUNDARY_CONDITION

/-- Fixture: the negate-conditional mutant preceding `mb6` in line order. -/
def mn6 : Mutant := mkMutant "n6" "g.py" 10 1 .NEGATE_CONDITIONAL

/-- Fixture: first logical-operator mutant for the coverage-stage runs. -/
def cA : Mutant := mkMutant "ca" "h.py" 20 1 .LOGICAL_OPERATOR

/-- Fixture: second logical-operator mutant for the coverage-stage runs. -/
def cB : Mutant := mkMutant "cb" "h.py" 30 1 .LOGICAL_OPERATOR

/-- Fixture: a constant coverage estimator — every mutant is covered by the
single test `t1`. -/
def est0 : Mutant → Finset String := fun _ => {"t1"}

end Impt

namespace Impt

/-! ## Theorems -/

/-- C7: `compute_similarity` is symmetric; it returns 1.0 on two empty sets,
0.0 when exactly one set is empty, and otherwise the Jaccard index
`|A∩B| / |A∪B|`, which lies in `[0, 1]`. -/
theorem C7_compute_similarity_spec (A B : Finset String) :
    compute_similarity A B = compute_similarity B A ∧
    (A = ∅ ∧ B = ∅ → compute_similarity A B = 1) ∧
    ((A = ∅ ∧ B ≠ ∅) ∨ (A ≠ ∅ ∧ B = ∅) → compute_similarity A B = 0) ∧
    (A ≠ ∅ → B ≠ ∅ →
      compute_similarity A B = ((A ∩ B).card : ℚ) / ((A ∪ B).card : ℚ) ∧
      0 ≤ compute_similarity A B ∧ compute_similarity A B ≤ 1) := by
  refine ⟨?_, ?_, ?_, ?_⟩
  · unfold compute_similarity
    rcases eq_or_ne A ∅ with hA | hA <;> rcases eq_or_ne B ∅ with hB | hB <;>
      simp [hA, hB, Finset.inter_comm, Finset.union_comm]
  · rintro ⟨hA, hB⟩
    simp [compute_similarity, hA, hB]
    norm_num
  · rintro (⟨hA, hB⟩ | ⟨hA, hB⟩) <;> simp [compute_similarity, hA, hB] <;> norm_num
  · intro hA hB
    have hU : 0 < (A ∪ B).card := by
      rcases Finset.nonempty_iff_ne_empty.mpr hA with ⟨a, ha⟩
      exact Finset.card_pos.mpr ⟨a, Finset.mem_union_left _ ha⟩
    have hval : compute_similarity A B = ((A ∩ B).card : ℚ) / ((A ∪ B).card : ℚ) := by
      simp [compute_similarity, hA, hB, hU]
    refine ⟨hval, ?_, ?_⟩
    · rw [hval]
      positivity
    · rw [hval]
      rw [div_le_one (by exact_mod_cast hU)]
      exact_mod_cast Finset.card_le_card
        (Finset.Subset.trans (Finset.inter_subset_left) (Finset.subset_union_left))

/-- C7 witness: concrete application — `{"a"}` is nonempty and its
similarity with the empty set is 0. -/
theorem C7_witness :
    (({"t1"} : Finset String) ≠ ∅ ∧ (∅ : Finset String) = ∅) ∧
    compute_similarity {"t1"} ∅ = 0 :=
  ⟨⟨by decide, rfl⟩,
    (C7_compute_similarity_spec {"t1"} ∅).2.2.1 (Or.inr ⟨by decide, rfl⟩)⟩

/-- C9 (amended): with metrics attached, the complexity factor equals the
weighted sum of the four min-capped components, and it never exceeds 1.0
(each component is capped, so the whole sum is bounded by
0.4 + 0.3 + 0.2 + 0.1 = 1). -/
theorem C9_complexity_factor_formula (m : Mutant) (cm : CodeMetrics)
    (h : m.code_metrics = some cm) :
    complexity_factor m =
      0.4 * min ((cm.cyclomatic_complexity : ℚ) / 20) 1 +
      0.3 * min ((cm.cognitive_complexity : ℚ) / 30) 1 +
      0.2 * min ((cm.nesting_depth : ℚ) / 5) 1 +
      0.1 * min ((cm.number_of_parameters : ℚ) / 8) 1 ∧
    complexity_factor m ≤ 1 := by
  have hval : complexity_factor m =
      0.4 * min ((cm.cyclomatic_complexity : ℚ) / 20) 1 +
      0.3 * min ((cm.cognitive_complexity : ℚ) / 30) 1 +
      0.2 * min ((cm.nesting_depth : ℚ) / 5) 1 +
      0.1 * min ((cm.number_of_parameters : ℚ) / 8) 1 := by
    simp [complexity_factor, h]
    norm_num
  refine ⟨hval, ?_⟩
  rw [hval]
  have h1 : min ((cm.cyclomatic_complexity : ℚ) / 20) 1 ≤ 1 := min_le_right _ _
  have h2 : min ((cm.cognitive_complexity : ℚ) / 30) 1 ≤ 1 := min_le_right _ _
  have h3 : min ((cm.nesting_depth : ℚ) / 5) 1 ≤ 1 := min_le_right _ _
  have h4 : min ((cm.number_of_parameters : ℚ) / 8) 1 ≤ 1 := min_le_right _ _
  nlinarith

/-- C9 witness: concrete application of the amended theorem to a mutant whose
metrics saturate every component; the factor evaluates to exactly 1. -/
theorem C9_witness :
    ({ mkMutant "m1" "f.py" 10 1 .BOUNDARY_CONDITION with
        code_metrics := some bigMetrics } : Mutant).code_metrics = some bigMetrics ∧
    complexity_factor
      { mkMutant "m1" "f.py" 10 1 .BOUNDARY_CONDITION with
        code_metrics := some bigMetrics } ≤ 1 :=
  ⟨rfl,
    (C9_complexity_factor_formula _ bigMetrics rfl).2⟩

/-- C9 counterexample: the claim that the complexity factor exceeds 1.0 for
some extreme metric values is false — no mutant whatsoever has a complexity
factor above 1 (each component of the sum is min-capped). -/
theorem C9_counterexample :
    ¬ ∃ m : Mutant, 1 < complexity_factor m := by
  rintro ⟨m, hm⟩
  rcases hcm : m.code_metrics with _ | cm
  · rw [complexity_factor, hcm] at hm
    norm_num at hm
  · have := (C9_complexity_factor_formula m cm hcm).2
    exact absurd hm (not_lt.mpr this)

/-- C10: `get_statistics` is total — with `total_input = 0` the reported
`reduction_percent` is the guarded default 0 (the division is unreachable),
and with `total_input > 0` it is exactly `(1 - total_output/total_input) × 100`. -/
theorem C10_get_statistics_total (s : SubsumptionStats) :
    (s.total_input = 0 → (get_statistics s).reduction_percent = 0) ∧
    (0 < s.total_input →
      (get_statistics s).reduction_percent =
        (1 - (s.total_output : ℚ) / (s.total_input : ℚ)) * 100) := by
  constructor
  · intro h
    simp [get_statistics, h]
  · intro h
    simp [get_statistics, h]

/-! ### Scorer helper lemmas -/

theorem foldl_min_le_init (l : List ℚ) : ∀ a : ℚ, l.foldl min a ≤ a := by
  induction l with
  | nil => intro a; simp
  | cons x xs ih => intro a; exact le_trans (ih (min a x)) (min_le_left a x)

theorem foldl_min_le_mem (l : List ℚ) : ∀ a x : ℚ, x ∈ l → l.foldl min a ≤ x := by
  induction l with
  | nil => intro a x hx; cases hx
  | cons y ys ih =>
      intro a x hx
      rcases List.mem_cons.mp hx with h | h
      · subst h
        exact le_trans (foldl_min_le_init ys (min a x)) (min_le_right a x)
      · exact ih (min a y) x h

theorem init_le_foldl_max (l : List ℚ) : ∀ a : ℚ, a ≤ l.foldl max a := by
  induction l with
  | nil => intro a; simp
  | cons x xs ih => intro a; exact le_trans (le_max_left a x) (ih (max a x))

theorem mem_le_foldl_max (l : List ℚ) : ∀ a x : ℚ, x ∈ l → x ≤ l.foldl max a := by
  induction l with
  | nil => intro a x hx; cases hx
  | cons y ys ih =>
      intro a x hx
      rcases List.mem_cons.mp hx with h | h
      · subst h
        exact le_trans (le_max_right a x) (init_le_foldl_max ys (max a x))
      · exact ih (max a y) x h

theorem minList_le (l : List ℚ) (x : ℚ) (hx : x ∈ l) : minList l ≤ x := by
  cases l with
  | nil => cases hx
  | cons y ys =>
      rcases List.mem_cons.mp hx with h | h
      · rw [h]; exact foldl_min_le_init ys y
      · exact foldl_min_le_mem ys y x h

theorem le_maxList (l : List ℚ) (x : ℚ) (hx : x ∈ l) : x ≤ maxList l := by
  cases l with
  | nil => cases hx
  | cons y ys =>
      rcases List.mem_cons.mp hx with h | h
      · rw [h]; exact init_le_foldl_max ys y
      · exact mem_le_foldl_max ys y x h

theorem foldl_min_const (l : List ℚ) : ∀ a : ℚ, (∀ x ∈ l, x = a) → l.foldl min a = a := by
  induction l with
  | nil => intro a _; rfl
  | cons y ys ih =>
      intro a h
      have hy : y = a := h y (List.mem_cons_self _ _)
      have : ∀ x ∈ ys, x = a := fun x hx => h x (List.mem_cons_of_mem _ hx)
      simp only [List.foldl_cons, hy, min_self]
      exact ih a this

theorem foldl_max_const (l : List ℚ) : ∀ a : ℚ, (∀ x ∈ l, x = a) → l.foldl max a = a := by
  induction l with
  | nil => intro a _; rfl
  | cons y ys ih =>
      intro a h
      have hy : y = a := h y (List.mem_cons_self _ _)
      have : ∀ x ∈ ys, x = a := fun x hx => h x (List.mem_cons_of_mem _ hx)
      simp only [List.foldl_cons, hy, max_self]
      exact ih a this

/-- Every min-max normalized value lies in [0, 1]. -/
theorem normalize_values_bounds (values : List ℚ) (v : ℚ)
    (hv : v ∈ normalize_values values) : 0 ≤ v ∧ v ≤ 1 := by
  unfold normalize_values at hv
  by_cases h : maxList values - minList values = 0
  · rw [if_pos h] at hv
    obtain ⟨x, _, rfl⟩ := List.mem_map.mp hv
    norm_num
  · rw [if_neg h] at hv
    obtain ⟨x, hx, rfl⟩ := List.mem_map.mp hv
    have h1 : minList values ≤ x := minList_le _ _ hx
    have h2 : x ≤ maxList values := le_maxList _ _ hx
    have h3 : 0 < maxList values - minList values :=
      lt_of_le_of_ne (by linarith) (Ne.symm h)
    constructor
    · exact div_nonneg (by linarith) (le_of_lt h3)
    · rw [div_le_one h3]; linarith

/-- If all raw values are equal, every normalized value is 0.5. -/
theorem normalize_values_const (values : List ℚ)
    (heq : ∀ x ∈ values, ∀ y ∈ values, x = y) (v : ℚ)
    (hv : v ∈ normalize_values values) : v = 0.5 := by
  cases values with
  | nil => simp [normalize_values] at hv
  | cons y ys =>
      have hall : ∀ x ∈ ys, x = y := fun x hx =>
        heq x (List.mem_cons_of_mem _ hx) y (List.mem_cons_self _ _)
      have hmin : minList (y :: ys) = y := foldl_min_const ys y hall
      have hmax : maxList (y :: ys) = y := foldl_max_const ys y hall
      have hz : maxList (y :: ys) - minList (y :: ys) = 0 := by
        rw [hmin, hmax, sub_self]
      unfold normalize_values at hv
      rw [if_pos hz] at hv
      obtain ⟨x, _, rfl⟩ := List.mem_map.mp hv
      rfl

theorem normalize_values_singleton (x : ℚ) : normalize_values [x] = [0.5] := by
  simp [normalize_values, minList, maxList]

theorem lookup_mem {β : Type} (d : List (String × β)) (i : String) (v : β)
    (h : d.lookup i = some v) : (i, v) ∈ d := by
  induction d with
  | nil => simp [List.lookup] at h
  | cons p ps ih =>
      rcases p with ⟨k, b⟩
      rw [List.lookup] at h
      cases hk : i == k with
      | true =>
          rw [hk] at h
          have : b = v := by simpa using h
          subst this
          have : i = k := eq_of_beq hk
          subst this
          exact List.mem_cons_self _ _
      | false =>
          rw [hk] at h
          exact List.mem_cons_of_mem _ (ih h)

/-- Whatever id is looked up, the factor dictionary built by
`_compute_normalized_factors` only holds values in [0, 1] (an absent id gives
the all-zero default of the model, also in range). -/
theorem dict_get_bounds (env : ScorerEnv) (ms : List Mutant) (i : String) (f : Factor) :
    0 ≤ dict_get (normalized_dict env ms) i f ∧
      dict_get (normalized_dict env ms) i f ≤ 1 := by
  unfold dict_get
  cases hl : ((normalized_dict env ms).reverse).lookup i with
  | none => norm_num
  | some dd =>
      simp only [Option.getD_some]
      have hmem : (i, dd) ∈ (normalized_dict env ms).reverse := lookup_mem _ _ _ hl
      rw [List.mem_reverse] at hmem
      unfold normalized_dict at hmem
      obtain ⟨p, _, hpe⟩ := List.mem_map.mp hmem
      have hdd : dd = fun g => (compute_normalized_factors env ms g).getD p.1 0 := by
        have := (Prod.mk.injEq _ _ _ _).mp hpe
        exact this.2.symm
      rw [hdd]
      rcases he : (compute_normalized_factors env ms f)[p.1]? with _ | x
      · simp [List.getD_eq_getElem?_getD, he]
      · have hx : x ∈ compute_normalized_factors env ms f := by
          exact List.getElem?_mem he
        have := normalize_values_bounds (ms.map (raw_factor env f)) x hx
        simp only [List.getD_eq_getElem?_getD, he, Option.getD_some]
        exact this

/-- In a batch of one, every factor min-max-normalizes to 0.5 (the batch
minimum equals the batch maximum). -/
theorem compute_normalized_factors_singleton (env : ScorerEnv) (m : Mutant) (f : Factor) :
    compute_normalized_factors env [m] f = [0.5] := by
  unfold compute_normalized_factors
  simp only [List.map_cons, List.map_nil]
  exact normalize_values_singleton _

/-- Closed form of `score_all` on a singleton batch: metrics attached and the
constant score `(0.30+0.25+0.20+0.15+0.10)·0.5·10 = 5`. -/
theorem score_all_singleton (env : ScorerEnv) (m : Mutant) :
    score_all env [m] = [{ precompute_metrics env m with priority_score := 5 }] := by
  have hd : ∀ f, dict_get (normalized_dict env [precompute_metrics env m])
      (precompute_metrics env m).id f = 0.5 := by
    intro f
    simp [normalized_dict, dict_get, List.enum, List.enumFrom, List.lookup,
          compute_normalized_factors_singleton]
  unfold score_all
  simp only [List.map_cons, List.map_nil, List.insertionSort, List.orderedInsert]
  simp only [calculate_weighted_score, hd, WEIGHTS]
  norm_num

/-! ### Claims C1–C3 -/

/-- C1: after `score_all`, every mutant in the returned batch has its
`priority_score` in the closed interval [0, 10]. -/
theorem C1_priority_score_bounds (env : ScorerEnv) (mutants : List Mutant)
    (hne : mutants ≠ []) :
    ∀ m ∈ score_all env mutants, 0 ≤ m.priority_score ∧ m.priority_score ≤ 10 := by
  intro m hm
  unfold score_all at hm
  rw [(List.perm_insertionSort score_ge _).mem_iff] at hm
  obtain ⟨m₀, _, rfl⟩ := List.mem_map.mp hm
  simp only
  have hh := dict_get_bounds env (mutants.map (precompute_metrics env)) m₀.id
  have h1 := hh Factor.historical
  have h2 := hh Factor.complexity
  have h3 := hh Factor.security
  have h4 := hh Factor.recency
  have h5 := hh Factor.bug_history
  unfold calculate_weighted_score WEIGHTS
  constructor
  · nlinarith [h1.1, h2.1, h3.1, h4.1, h5.1]
  · nlinarith [h1.2, h2.2, h3.2, h4.2, h5.2, h1.1, h2.1, h3.1, h4.1, h5.1]

/-- C1 witness: the score of the head of a concretely scored singleton batch
is within bounds. -/
theorem C1_witness :
    ([m0] ≠ ([] : List Mutant)) ∧
    (0 ≤ ({ precompute_metrics envHot m0 with priority_score := 5 } : Mutant).priority_score ∧
      ({ precompute_metrics envHot m0 with priority_score := 5 } : Mutant).priority_score ≤ 10) :=
  ⟨List.cons_ne_nil _ _,
    C1_priority_score_bounds envHot [m0] (List.cons_ne_nil _ _)
      { precompute_metrics envHot m0 with priority_score := 5 }
      (by rw [score_all_singleton]; exact List.mem_cons_self _ _)⟩

/-- C2: for every factor and every non-empty batch, each min-max normalized
value computed by the scorer lies in [0, 1]; and if all raw values of the
factor agree across the batch, every normalized value is 0.5. -/
theorem C2_minmax_normalization_spec (env : ScorerEnv) (mutants : List Mutant)
    (f : Factor) (hne : mutants ≠ []) :
    (∀ v ∈ compute_normalized_factors env mutants f, 0 ≤ v ∧ v ≤ 1) ∧
    ((∀ x ∈ mutants.map (raw_factor env f), ∀ y ∈ mutants.map (raw_factor env f), x = y) →
      ∀ v ∈ compute_normalized_factors env mutants f, v = 0.5) :=
  ⟨fun v hv => normalize_values_bounds (mutants.map (raw_factor env f)) v hv,
   fun heq v hv => normalize_values_const (mutants.map (raw_factor env f)) heq v hv⟩

/-- C2 witness: in a concrete singleton batch the security factor normalizes
to 0.5, which the theorem places in [0, 1]. -/
theorem C2_witness :
    ([m0] ≠ ([] : List Mutant)) ∧
    ((0.5 : ℚ) ∈ compute_normalized_factors envHot [m0] Factor.security ∧
      0 ≤ (0.5 : ℚ) ∧ (0.5 : ℚ) ≤ 1) :=
  ⟨List.cons_ne_nil _ _,
    ⟨by rw [compute_normalized_factors_singleton]; exact List.mem_cons_self _ _,
      (C2_minmax_normalization_spec envHot [m0] Factor.security (List.cons_ne_nil _ _)).1 0.5
        (by rw [compute_normalized_factors_singleton]; exact List.mem_cons_self _ _)⟩⟩

/-- C3 (amended): `score_all` on a singleton batch always assigns the
constant score 5.0 (every factor min-max-normalizes to 0.5 in a batch of
one), while contextless `score_single` returns ten times the raw weighted
sum of the mutant's factors; the two agree only when that raw weighted sum
happens to be 0.5. -/
theorem C3_singleton_scoring (env : ScorerEnv) (m : Mutant) :
    (score_all env [m]).map Mutant.priority_score = [5] ∧
    score_single env m [] =
      weighted_sum (compute_factors_single env (precompute_metrics env m)) := by
  refine ⟨?_, rfl⟩
  rw [score_all_singleton]
  rfl

/-- C3 counterexample: in a concrete saturating environment, `score_single`
with no context returns 10 while `score_all` on the singleton returns 5, so
the two disagree. -/
theorem C3_counterexample :
    (score_all envHot [m0]).map Mutant.priority_score ≠ [score_single envHot m0 []] := by
  rw [score_all_singleton]
  have hs : score_single envHot m0 [] = 10 := by
    show weighted_sum (compute_factors_single envHot (precompute_metrics envHot m0)) = 10
    simp [weighted_sum, calculate_weighted_score, compute_factors_single, WEIGHTS,
          raw_factor, historical_factor, complexity_factor, security_factor,
          recency_factor, bug_history_factor, precompute_metrics, envHot, bigMetrics,
          HistoricalData.kill_rate, m0, mkMutant, mkLocation, min_def]
    norm_num
  rw [hs]
  simp only [List.map_cons, List.map_nil, ne_eq, List.cons.injEq, not_and]
  intro h
  norm_num at h

/-- C10 witness: concrete applications — the empty run reports 0, and the
100-to-60 run reports a 40% reduction. -/
theorem C10_witness :
    (statsInit.total_input = 0 ∧ (get_statistics statsInit).reduction_percent = 0) ∧
    (0 < statsRun.total_input ∧ (get_statistics statsRun).reduction_percent = 40) := by
  refine ⟨⟨rfl, (C10_get_statistics_total statsInit).1 rfl⟩, ⟨by decide, ?_⟩⟩
  rw [(C10_get_statistics_total statsRun).2 (by decide)]
  norm_num [statsRun]

/-! ### Decimal representation: `Nat.repr` is injective -/

theorem digit_val_digitChar (k : ℕ) (hk : k < 10) :
    digit_val (Nat.digitChar k) = k := by
  interval_cases k <;> rfl

/-- `Nat.toDigitsCore` only prepends to its accumulator. -/
theorem toDigitsCore_append (fuel : ℕ) :
    ∀ (n : ℕ) (ds : List Char),
      Nat.toDigitsCore 10 fuel n ds = Nat.toDigitsCore 10 fuel n [] ++ ds := by
  induction fuel with
  | zero => intro n ds; simp [Nat.toDigitsCore]
  | succ fuel ih =>
      intro n ds
      by_cases h : n / 10 = 0
      · simp [Nat.toDigitsCore, h]
      · simp only [Nat.toDigitsCore, h, if_neg, if_false]
        rw [ih (n / 10) (Nat.digitChar (n % 10) :: ds),
            ih (n / 10) [Nat.digitChar (n % 10)]]
        simp

/-- Decoding the digits of `n` recovers `n` (with sufficient fuel). -/
theorem decode_toDigitsCore :
    ∀ (fuel n : ℕ), n < fuel →
      decode_digits (Nat.toDigitsCore 10 fuel n []) = n := by
  intro fuel
  induction fuel with
  | zero => intro n hn; omega
  | succ fuel ih =>
      intro n hn
      by_cases h : n / 10 = 0
      · have hn10 : n < 10 := (Nat.div_eq_zero_iff (by norm_num)).mp h
        simp only [Nat.toDigitsCore, h, if_pos]
        simp [decode_digits, Nat.mod_eq_of_lt hn10, digit_val_digitChar n hn10]
      · have hpos : 0 < n := by
          rcases Nat.eq_zero_or_pos n with h0 | h0
          · exact absurd (by simp [h0]) h
          · exact h0
        have hdiv : n / 10 < fuel := by
          have h1 : n / 10 < n := Nat.div_lt_self hpos (by norm_num)
          omega
        simp only [Nat.toDigitsCore, h, if_neg, if_false]
        rw [toDigitsCore_append]
        unfold decode_digits
        rw [List.foldl_append]
        have hih := ih (n / 10) hdiv
        unfold decode_digits at hih
        rw [hih]
        simp only [List.foldl_cons, List.foldl_nil]
        rw [digit_val_digitChar (n % 10) (Nat.mod_lt n (by norm_num))]
        omega

/-- `Nat.repr` is injective. -/
theorem nat_repr_injective (a b : ℕ) (h : Nat.repr a = Nat.repr b) : a = b := by
  have hdata : Nat.toDigits 10 a = Nat.toDigits 10 b := congrArg String.data h
  have ha : decode_digits (Nat.toDigits 10 a) = a :=
    decode_toDigitsCore (a + 1) a (Nat.lt_succ_self a)
  have hb : decode_digits (Nat.toDigits 10 b) = b :=
    decode_toDigitsCore (b + 1) b (Nat.lt_succ_self b)
  rw [← ha, hdata, hb]

/-- Two test names with the same path prefix and equal text have equal
numeric suffixes. -/
theorem test_name_inj (p : String) (a b : ℕ) (h : test_name p a = test_name p b) :
    a = b := by
  unfold test_name at h
  have hd := congrArg String.data h
  simp only [String.data_append, List.append_assoc] at hd
  have h1 := List.append_cancel_left hd
  have h2 := List.append_cancel_left h1
  have h3 := List.append_cancel_left h2
  exact nat_repr_injective a b (String.ext h3)

/-! ### Claim C8 -/

/-- C8: the coverage estimator is a function of `(file_path, line_start)`
alone — mutants agreeing on both get identical test sets, and repeated calls
trivially agree — and the returned set always holds between 3 and 8 test
identifiers, for every hash function. -/
theorem C8_estimate_coverage_spec (hashFn : String → ℕ) (m1 m2 : Mutant)
    (hf : m1.location.file_path = m2.location.file_path)
    (hl : m1.location.line_start = m2.location.line_start) :
    estimate_coverage hashFn m1 = estimate_coverage hashFn m2 ∧
    3 ≤ (estimate_coverage hashFn m1).card ∧
    (estimate_coverage hashFn m1).card ≤ 8 := by
  refine ⟨?_, ?_⟩
  · unfold estimate_coverage generate_test_set
    rw [hf, hl]
  · have hcard : (estimate_coverage hashFn m1).card =
        3 + hashFn (location_str m1.location.file_path m1.location.line_start) % 6 := by
      unfold estimate_coverage generate_test_set
      rw [Finset.card_image_of_injOn, Finset.card_range]
      intro i hi j hj hij
      have hmem_i : i < 3 + hashFn (location_str m1.location.file_path m1.location.line_start) % 6 := by
        simpa using hi
      have hmem_j : j < 3 + hashFn (location_str m1.location.file_path m1.location.line_start) % 6 := by
        simpa using hj
      have hmod :
          (hashFn (location_str m1.location.file_path m1.location.line_start) + i) % 1000 =
          (hashFn (location_str m1.location.file_path m1.location.line_start) + j) % 1000 :=
        test_name_inj _ _ _ hij
      have hcancel : i % 1000 = j % 1000 :=
        Nat.ModEq.add_left_cancel' _ hmod
      have h6 : hashFn (location_str m1.location.file_path m1.location.line_start) % 6 < 6 :=
        Nat.mod_lt _ (by norm_num)
      rw [Nat.mod_eq_of_lt (by omega), Nat.mod_eq_of_lt (by omega)] at hcancel
      exact hcancel
    constructor
    · rw [hcard]; omega
    · rw [hcard]
      have : hashFn (location_str m1.location.file_path m1.location.line_start) % 6 < 6 :=
        Nat.mod_lt _ (by norm_num)
      omega

/-- C8 witness: two concrete mutants at the same file and line (different
columns and operators) receive the identical set, of size within [3, 8]. -/
theorem C8_witness :
    (m0.location.file_path = m8.location.file_path ∧
      m0.location.line_start = m8.location.line_start) ∧
    (estimate_coverage (fun _ => 0) m0 = estimate_coverage (fun _ => 0) m8 ∧
      3 ≤ (estimate_coverage (fun _ => 0) m0).card ∧
      (estimate_coverage (fun _ => 0) m0).card ≤ 8) :=
  ⟨⟨rfl, rfl⟩, C8_estimate_coverage_spec (fun _ => 0) m0 m8 rfl rfl⟩

/-! ### Stage three: operator-level subsumption -/

/-- Closed form of the stage-three removal set on a two-mutant input made of
a boundary-condition mutant `mb` and a negate-conditional mutant `mn` in the
same file: `mn` is removed exactly when `mb` precedes it in line order
within the 5-line window. -/
theorem operator_rem_pair (mb mn : Mutant)
    (hb : mb.operator = .BOUNDARY_CONDITION)
    (hn : mn.operator = .NEGATE_CONDITIONAL)
    (hfile : mn.location.file_path = mb.location.file_path) :
    operator_rem [mb, mn] =
      if mb.location.line_start ≤ mn.location.line_start ∧
          mn.location.line_start - mb.location.line_start ≤ 5
      then {mn.id} else ∅ := by
  unfold operator_rem
  have hkeys : ordered_keys ([mb, mn].map (fun m => m.location.file_path)) =
      [mb.location.file_path] := by
    simp [ordered_keys, hfile]
  rw [hkeys]
  simp only [List.foldl_cons, List.foldl_nil]
  have hfilt : [mb, mn].filter (fun m => m.location.file_path == mb.location.file_path) =
      [mb, mn] := by
    simp [List.filter_cons, List.filter_nil, hfile]
  rw [hfilt]
  by_cases hle : mb.location.line_start ≤ mn.location.line_start
  · have hsort : List.insertionSort line_le [mb, mn] = [mb, mn] := by
      simp [List.insertionSort, List.orderedInsert, line_le, hle]
    rw [hsort]
    by_cases hgap : mn.location.line_start - mb.location.line_start ≤ 5
    · rw [if_pos ⟨hle, hgap⟩]
      have habs : ¬(((mn.location.line_start : ℤ) - (mb.location.line_start : ℤ)).natAbs > 5) := by
        omega
      simp [operator_scan_file, operator_scan, OPERATOR_SUBSUMPTIONS, hb, hn, habs,
            Finset.singleton_ne_empty]
    · rw [if_neg (fun hc => hgap hc.2)]
      have habs : (((mn.location.line_start : ℤ) - (mb.location.line_start : ℤ)).natAbs > 5) := by
        omega
      simp [operator_scan_file, operator_scan, OPERATOR_SUBSUMPTIONS, hb, hn, habs,
            Finset.singleton_ne_empty]
  · have hsort : List.insertionSort line_le [mb, mn] = [mn, mb] := by
      simp [List.insertionSort, List.orderedInsert, line_le, hle]
    rw [hsort]
    rw [if_neg (fun hc => hle hc.1)]
    simp [operator_scan_file, operator_scan, OPERATOR_SUBSUMPTIONS, hb, hn,
          Finset.singleton_ne_empty]

/-- C6 (amended): on a two-mutant input of a boundary-condition mutant `mb`
and a negate-conditional mutant `mn` in the same file, the stage removes
`mn` exactly when `mb` comes no later in line order and the gap is at most
5; in particular when `mn` precedes `mb`, both survive even with a gap of at
most 5, and whenever the gap is 6 or more both survive. -/
theorem C6_operator_subsumption_pair (mb mn : Mutant)
    (hb : mb.operator = .BOUNDARY_CONDITION)
    (hn : mn.operator = .NEGATE_CONDITIONAL)
    (hfile : mn.location.file_path = mb.location.file_path)
    (hid : mb.id ≠ mn.id) :
    apply_operator_subsumption [mb, mn] =
      if mb.location.line_start ≤ mn.location.line_start ∧
          mn.location.line_start - mb.location.line_start ≤ 5
      then [mb] else [mb, mn] := by
  unfold apply_operator_subsumption
  rw [operator_rem_pair mb mn hb hn hfile]
  by_cases hcond : mb.location.line_start ≤ mn.location.line_start ∧
      mn.location.line_start - mb.location.line_start ≤ 5
  · rw [if_pos hcond, if_pos hcond]
    simp [List.filter_cons, List.filter_nil, hid]
  · rw [if_neg hcond, if_neg hcond]
    simp [List.filter_cons, List.filter_nil]

/-- C6 witness: boundary at line 10 and negate at line 10 of the same file
(gap 0 ≤ 5, boundary first): only the boundary mutant survives. -/
theorem C6_witness :
    (m0.operator = .BOUNDARY_CONDITION ∧ m8.operator = .NEGATE_CONDITIONAL ∧
      m8.location.file_path = m0.location.file_path ∧ m0.id ≠ m8.id) ∧
    apply_operator_subsumption [m0, m8] = [m0] := by
  refine ⟨⟨rfl, rfl, rfl, by decide⟩, ?_⟩
  rw [C6_operator_subsumption_pair m0 m8 rfl rfl rfl (by decide)]
  rw [if_pos (by decide)]

/-- C6 counterexample: with the negate-conditional mutant at line 10 and the
boundary-condition mutant at line 12 (gap 2 ≤ 5) in the same file, the
negate mutant is *not* removed — both mutants survive the stage, refuting
the claim that a gap of at most 5 always removes the negate mutant. -/
theorem C6_counterexample :
    ((((mn6.location.line_start : ℤ) - (mb6.location.line_start : ℤ)).natAbs ≤ 5) ∧
      mb6.operator = .BOUNDARY_CONDITION ∧ mn6.operator = .NEGATE_CONDITIONAL ∧
      mn6.location.file_path = mb6.location.file_path) ∧
    apply_operator_subsumption [mb6, mn6] = [mb6, mn6] := by
  refine ⟨⟨by decide, rfl, rfl, rfl⟩, ?_⟩
  unfold apply_operator_subsumption
  rw [operator_rem_pair mb6 mn6 rfl rfl rfl]
  rw [if_neg (by decide)]
  simp [List.filter_cons, List.filter_nil]

/-! ### Stage four: coverage-based subsumption — loop lemmas -/

theorem coverage_scan_mono (thr : ℚ) (cov : String → Finset String) (m1 : Mutant) :
    ∀ (l : List Mutant) (rem : Finset String), rem ⊆ coverage_scan thr cov m1 l rem := by
  intro l
  induction l with
  | nil => intro rem; simp [coverage_scan]
  | cons m2 rest ih =>
      intro rem
      simp only [coverage_scan]
      by_cases h1 : m2.id ∈ rem
      · rw [if_pos h1]; exact ih rem
      · rw [if_neg h1]
        by_cases h2 : coverage_check thr cov m1 m2
        · rw [if_pos h2]
          exact (Finset.subset_insert _ _).trans (ih _)
        · rw [if_neg h2]; exact ih rem

theorem coverage_scan_all_mono (thr : ℚ) (cov : String → Finset String) :
    ∀ (l : List Mutant) (rem : Finset String), rem ⊆ coverage_scan_all thr cov l rem := by
  intro l
  induction l with
  | nil => intro rem; simp [coverage_scan_all]
  | cons m1 rest ih =>
      intro rem
      simp only [coverage_scan_all]
      by_cases h1 : m1.id ∈ rem
      · rw [if_pos h1]; exact ih rem
      · rw [if_neg h1]
        exact (coverage_scan_mono thr cov m1 rest rem).trans (ih _)

theorem coverage_scan_subset (thr : ℚ) (cov : String → Finset String) (m1 : Mutant) :
    ∀ (l : List Mutant) (rem : Finset String),
      coverage_scan thr cov m1 l rem ⊆ rem ∪ (l.map Mutant.id).toFinset := by
  intro l
  induction l with
  | nil => intro rem; simp [coverage_scan]
  | cons m2 rest ih =>
      intro rem
      simp only [coverage_scan]
      by_cases h1 : m2.id ∈ rem
      · rw [if_pos h1]
        refine (ih rem).trans ?_
        intro x hx
        simp only [Finset.mem_union, List.toFinset_cons, Finset.mem_insert,
          List.mem_toFinset, List.map_cons, List.mem_cons] at hx ⊢
        tauto
      · rw [if_neg h1]
        by_cases h2 : coverage_check thr cov m1 m2
        · rw [if_pos h2]
          refine (ih _).trans ?_
          intro x hx
          simp only [Finset.mem_union, Finset.mem_insert, List.toFinset_cons,
            List.mem_toFinset, List.map_cons, List.mem_cons] at hx ⊢
          tauto
        · rw [if_neg h2]
          refine (ih rem).trans ?_
          intro x hx
          simp only [Finset.mem_union, List.toFinset_cons, Finset.mem_insert,
            List.mem_toFinset, List.map_cons, List.mem_cons] at hx ⊢
          tauto

theorem coverage_scan_all_subset (thr : ℚ) (cov : String → Finset String) :
    ∀ (l : List Mutant) (rem : Finset String),
      coverage_scan_all thr cov l rem ⊆ rem ∪ (l.map Mutant.id).toFinset := by
  intro l
  induction l with
  | nil => intro rem; simp [coverage_scan_all]
  | cons m1 rest ih =>
      intro rem
      simp only [coverage_scan_all]
      by_cases h1 : m1.id ∈ rem
      · rw [if_pos h1]
        refine (ih rem).trans ?_
        intro x hx
        simp only [Finset.mem_union, List.toFinset_cons, Finset.mem_insert,
          List.mem_toFinset, List.map_cons, List.mem_cons] at hx ⊢
        tauto
      · rw [if_neg h1]
        refine (ih _).trans ?_
        intro x hx
        simp only [Finset.mem_union, List.toFinset_cons, Finset.mem_insert,
          List.mem_toFinset, List.map_cons, List.mem_cons] at hx ⊢
        rcases hx with hx | hx
        · have := coverage_scan_subset thr cov m1 rest rem hx
          simp only [Finset.mem_union, List.mem_toFinset] at this
          tauto
        · tauto

/-- Soundness of the inner loop: every newly removed id belongs to a scanned
mutant that passes the removal test against `m1`. -/
theorem coverage_scan_sound (thr : ℚ) (cov : String → Finset String) (m1 : Mutant) :
    ∀ (l : List Mutant) (rem : Finset String) (x : String),
      x ∈ coverage_scan thr cov m1 l rem →
      x ∈ rem ∨ ∃ m2 ∈ l, x = m2.id ∧ coverage_check thr cov m1 m2 := by
  intro l
  induction l with
  | nil => intro rem x hx; left; simpa [coverage_scan] using hx
  | cons m2 rest ih =>
      intro rem x hx
      simp only [coverage_scan] at hx
      by_cases h1 : m2.id ∈ rem
      · rw [if_pos h1] at hx
        rcases ih rem x hx with h | ⟨m', hm', hx', hc⟩
        · left; exact h
        · right; exact ⟨m', List.mem_cons_of_mem _ hm', hx', hc⟩
      · rw [if_neg h1] at hx
        by_cases h2 : coverage_check thr cov m1 m2
        · rw [if_pos h2] at hx
          rcases ih _ x hx with h | ⟨m', hm', hx', hc⟩
          · rcases Finset.mem_insert.mp h with h' | h'
            · right; exact ⟨m2, List.mem_cons_self _ _, h', h2⟩
            · left; exact h'
          · right; exact ⟨m', List.mem_cons_of_mem _ hm', hx', hc⟩
        · rw [if_neg h2] at hx
          rcases ih rem x hx with h | ⟨m', hm', hx', hc⟩
          · left; exact h
          · right; exact ⟨m', List.mem_cons_of_mem _ hm', hx', hc⟩

/-- Completeness of the inner loop: every scanned mutant passing the removal
test ends up removed. -/
theorem coverage_scan_complete (thr : ℚ) (cov : String → Finset String) (m1 : Mutant) :
    ∀ (l : List Mutant) (rem : Finset String) (m2 : Mutant),
      m2 ∈ l → coverage_check thr cov m1 m2 →
      m2.id ∈ coverage_scan thr cov m1 l rem := by
  intro l
  induction l with
  | nil => intro rem m2 hm; cases hm
  | cons m' rest ih =>
      intro rem m2 hm hc
      simp only [coverage_scan]
      rcases List.mem_cons.mp hm with he | hm'
      · subst he
        by_cases h1 : m2.id ∈ rem
        · rw [if_pos h1]
          exact coverage_scan_mono thr cov m1 rest rem h1
        · rw [if_neg h1, if_pos hc]
          exact coverage_scan_mono thr cov m1 rest _ (Finset.mem_insert_self _ _)
      · by_cases h1 : m'.id ∈ rem
        · rw [if_pos h1]; exact ih rem m2 hm' hc
        · rw [if_neg h1]
          by_cases h2 : coverage_check thr cov m1 m'
          · rw [if_pos h2]; exact ih _ m2 hm' hc
          · rw [if_neg h2]; exact ih rem m2 hm' hc

/-- Soundness of the outer loop (for distinct ids): every removed id is the
id of a mutant `b` preceded in the list by a mutant `a` that passes the
removal test against it and itself survives the whole scan. -/
theorem coverage_scan_all_sound (thr : ℚ) (cov : String → Finset String) :
    ∀ (l : List Mutant) (rem : Finset String) (x : String),
      (l.map Mutant.id).Nodup →
      x ∈ coverage_scan_all thr cov l rem →
      x ∈ rem ∨ ∃ (a b : Mutant) (l1 l2 l3 : List Mutant),
        l = l1 ++ a :: (l2 ++ b :: l3) ∧ x = b.id ∧
        coverage_check thr cov a b ∧ a.id ∉ coverage_scan_all thr cov l rem := by
  intro l
  induction l with
  | nil => intro rem x _ hx; left; simpa [coverage_scan_all] using hx
  | cons m1 rest ih =>
      intro rem x hnd hx
      simp only [List.map_cons, List.nodup_cons] at hnd
      simp only [coverage_scan_all] at hx ⊢
      by_cases h1 : m1.id ∈ rem
      · rw [if_pos h1] at hx ⊢
        rcases ih rem x hnd.2 hx with h | ⟨a, b, l1, l2, l3, heq, hxb, hchk, hnot⟩
        · left; exact h
        · right
          exact ⟨a, b, m1 :: l1, l2, l3, by rw [heq]; rfl, hxb, hchk, hnot⟩
      · rw [if_neg h1] at hx ⊢
        by_cases hxrem : x ∈ rem
        · left; exact hxrem
        by_cases hxrem' : x ∈ coverage_scan thr cov m1 rest rem
        · rcases coverage_scan_sound thr cov m1 rest rem x hxrem' with h | ⟨m2, hm2, hxid, hchk⟩
          · exact absurd h hxrem
          right
          obtain ⟨r1, r2, hr⟩ := List.append_of_mem hm2
          refine ⟨m1, m2, [], r1, r2, by rw [hr]; rfl, hxid, hchk, ?_⟩
          intro hmem
          have hsub := coverage_scan_all_subset thr cov rest
            (coverage_scan thr cov m1 rest rem) hmem
          rcases Finset.mem_union.mp hsub with hA | hB
          · have hsub2 := coverage_scan_subset thr cov m1 rest rem hA
            rcases Finset.mem_union.mp hsub2 with hC | hD
            · exact h1 hC
            · exact hnd.1 (by simpa using hD)
          · exact hnd.1 (by simpa using hB)
        · rcases ih _ x hnd.2 hx with h | ⟨a, b, l1, l2, l3, heq, hxb, hchk, hnot⟩
          · exact absurd h hxrem'
          · right
            exact ⟨a, b, m1 :: l1, l2, l3, by rw [heq]; rfl, hxb, hchk, hnot⟩

/-- Completeness of the outer loop: if `a` survives the whole scan and the
pair `(a, b)` with `b` after `a` passes the removal test, then `b` is
removed. -/
theorem coverage_scan_all_complete (thr : ℚ) (cov : String → Finset String)
    (a b : Mutant) (hc : coverage_check thr cov a b) :
    ∀ (l1 l2 l3 : List Mutant) (rem : Finset String),
      a.id ∉ coverage_scan_all thr cov (l1 ++ a :: (l2 ++ b :: l3)) rem →
      b.id ∈ coverage_scan_all thr cov (l1 ++ a :: (l2 ++ b :: l3)) rem := by
  intro l1
  induction l1 with
  | nil =>
      intro l2 l3 rem ha
      simp only [List.nil_append] at ha ⊢
      simp only [coverage_scan_all] at ha ⊢
      by_cases h1 : a.id ∈ rem
      · exact absurd (coverage_scan_all_mono thr cov _ rem h1) (by rw [if_pos h1] at ha; exact ha)
      · rw [if_neg h1] at ha ⊢
        exact coverage_scan_all_mono thr cov _ _
          (coverage_scan_complete thr cov a _ rem b (by simp) hc)
  | cons c l1' ih =>
      intro l2 l3 rem ha
      simp only [List.cons_append] at ha ⊢
      simp only [coverage_scan_all] at ha ⊢
      by_cases h1 : c.id ∈ rem
      · rw [if_pos h1] at ha ⊢; exact ih l2 l3 rem ha
      · rw [if_neg h1] at ha ⊢; exact ih l2 l3 _ ha

/-- Decomposing a list with pairwise-distinct ids around an element is
unique. -/
theorem split_unique_by_id :
    ∀ (x1 : List Mutant) (a : Mutant) (x2 y1 : List Mutant) (b : Mutant) (y2 : List Mutant),
      ((x1 ++ a :: x2).map Mutant.id).Nodup →
      x1 ++ a :: x2 = y1 ++ b :: y2 →
      a.id = b.id →
      x1 = y1 ∧ a = b ∧ x2 = y2 := by
  intro x1
  induction x1 with
  | nil =>
      intro a x2 y1 b y2 hnd heq hab
      cases y1 with
      | nil =>
          simp only [List.nil_append] at heq
          injection heq with h1 h2
          exact ⟨rfl, h1, h2⟩
      | cons c y1' =>
          simp only [List.nil_append, List.cons_append] at heq
          injection heq with h1 h2
          exfalso
          simp only [List.nil_append, List.map_cons, List.nodup_cons] at hnd
          apply hnd.1
          rw [hab]
          have hb : b ∈ x2 := by rw [h2]; simp
          exact List.mem_map_of_mem Mutant.id hb
  | cons c x1' ih =>
      intro a x2 y1 b y2 hnd heq hab
      cases y1 with
      | nil =>
          simp only [List.cons_append, List.nil_append] at heq
          injection heq with h1 h2
          exfalso
          simp only [List.cons_append, List.map_cons, List.nodup_cons] at hnd
          apply hnd.1
          have ha : a ∈ x1' ++ a :: x2 := by simp
          have : a.id ∈ (x1' ++ a :: x2).map Mutant.id := List.mem_map_of_mem Mutant.id ha
          rw [h1, ← hab]
          exact this
      | cons d y1' =>
          simp only [List.cons_append] at heq
          injection heq with h1 h2
          simp only [List.cons_append, List.map_cons, List.nodup_cons] at hnd
          obtain ⟨he1, he2, he3⟩ := ih a x2 y1' b y2 hnd.2 h2 hab
          exact ⟨by rw [h1, he1], he2, he3⟩

/-- In a list with pairwise-distinct ids, members are determined by their
id. -/
theorem mem_id_inj (l : List Mutant) (hnd : (l.map Mutant.id).Nodup)
    (x y : Mutant) (hx : x ∈ l) (hy : y ∈ l) (h : x.id = y.id) : x = y := by
  induction l with
  | nil => cases hx
  | cons c rest ih =>
      simp only [List.map_cons, List.nodup_cons] at hnd
      rcases List.mem_cons.mp hx with rfl | hx' <;> rcases List.mem_cons.mp hy with hy1 | hy'
      · rw [hy1]
      · exact absurd (h ▸ List.mem_map_of_mem Mutant.id hy') hnd.1
      · rw [hy1] at h
        exact absurd (h ▸ List.mem_map_of_mem Mutant.id hx') hnd.1
      · exact ih hnd.2 hx' hy'

/-- The relatedness test of `_are_operators_related` is transitive: its true
pairs split into the arithmetic family, the conditional family, the
return/void pair and the reflexive singletons. -/
theorem are_operators_related_trans :
    ∀ a b c : MutationOperator, are_operators_related a b = true →
      are_operators_related b c = true → are_operators_related a c = true := by
  decide

theorem jaccard_nonneg (c1 c2 : Finset String) : 0 ≤ jaccard c1 c2 :=
  div_nonneg (by positivity) (by positivity)

/-- A removal test at any threshold entails the removal test at threshold
0 (the Jaccard similarity is never negative). -/
theorem coverage_check_weaken (thr : ℚ) (cov : String → Finset String) (m1 m2 : Mutant)
    (h : coverage_check thr cov m1 m2) : coverage_check 0 cov m1 m2 :=
  ⟨h.1, h.2.1, h.2.2.1, jaccard_nonneg _ _⟩

/-- Removal tests compose along a chain at threshold 0. -/
theorem coverage_check_compose (cov : String → Finset String) (e a b : Mutant) (t : ℚ)
    (h1 : coverage_check 0 cov e a) (h2 : coverage_check t cov a b) :
    coverage_check 0 cov e b :=
  ⟨are_operators_related_trans _ _ _ h1.1 h2.1,
   h2.2.1.trans h1.2.1, h2.2.2.1, jaccard_nonneg _ _⟩

/-- Every id removed by the scan at an arbitrary threshold is also removed
by the scan at threshold 0. -/
theorem coverage_scan_all_threshold (cov : String → Finset String) (t : ℚ)
    (l : List Mutant) (hnd : (l.map Mutant.id).Nodup) (x : String)
    (hx : x ∈ coverage_scan_all t cov l ∅) : x ∈ coverage_scan_all 0 cov l ∅ := by
  rcases coverage_scan_all_sound t cov l ∅ x hnd hx with
    h | ⟨a, b, l1, l2, l3, heq, hxb, hchk, hnot⟩
  · exact absurd h (Finset.not_mem_empty x)
  subst heq
  by_cases ha0 : a.id ∈ coverage_scan_all 0 cov (l1 ++ a :: (l2 ++ b :: l3)) ∅
  · rcases coverage_scan_all_sound 0 cov _ ∅ a.id hnd ha0 with
      h | ⟨e, b', p1, p2, p3, heq', hab', hchk0, henot⟩
    · exact absurd h (Finset.not_mem_empty _)
    have hbmem : b' ∈ l1 ++ a :: (l2 ++ b :: l3) := by rw [heq']; simp
    have hamem : a ∈ l1 ++ a :: (l2 ++ b :: l3) := by simp
    have hba : b' = a := mem_id_inj _ hnd b' a hbmem hamem hab'.symm
    subst hba
    have hform : l1 ++ b' :: (l2 ++ b :: l3) = (p1 ++ e :: p2) ++ b' :: p3 :=
      heq'.trans (by simp [List.append_assoc])
    obtain ⟨h1eq, -, -⟩ :=
      split_unique_by_id l1 b' (l2 ++ b :: l3) (p1 ++ e :: p2) b' p3 hnd hform rfl
    have hcb : coverage_check 0 cov e b := coverage_check_compose cov e b' b t hchk0 hchk
    have hsplit : l1 ++ b' :: (l2 ++ b :: l3) = p1 ++ e :: ((p2 ++ b' :: l2) ++ b :: l3) := by
      rw [h1eq]
      simp [List.append_assoc]
    rw [hxb, hsplit]
    rw [hsplit] at henot
    exact coverage_scan_all_complete 0 cov e b hcb p1 (p2 ++ b' :: l2) l3 ∅ henot
  · rw [hxb]
    exact coverage_scan_all_complete 0 cov a b (coverage_check_weaken t cov a b hchk)
      l1 l2 l3 ∅ ha0

/-- If a boolean predicate implies another on the members of a list, the
first filter is at most as long as the second. -/
theorem filter_length_mono {α : Type} (p q : α → Bool) :
    ∀ l : List α, (∀ a ∈ l, p a = true → q a = true) →
      (l.filter p).length ≤ (l.filter q).length := by
  intro l
  induction l with
  | nil => intro _; simp
  | cons x xs ih =>
      intro h
      have hx := h x (List.mem_cons_self _ _)
      have hxs : ∀ a ∈ xs, p a = true → q a = true :=
        fun a ha => h a (List.mem_cons_of_mem _ ha)
      simp only [List.filter_cons]
      by_cases hp : p x = true
      · rw [if_pos hp, if_pos (hx hp)]
        simpa using ih hxs
      · rw [if_neg hp]
        by_cases hq : q x = true
        · rw [if_pos hq]
          exact (ih hxs).trans (by simp)
        · rw [if_neg hq]
          exact ih hxs

/-! ### Claims C4 and C5 -/

/-- C4 (amended): in stage four, a mutant is removed only if some mutant
that survives the stage is related to it, its covering test set is a
superset (not necessarily proper) of the removed mutant's non-empty covering
set, and the Jaccard similarity meets the threshold. -/
theorem C4_coverage_subsumption_sound (thr : ℚ) (estimator : Mutant → Finset String)
    (mutants : List Mutant) (hnd : (mutants.map Mutant.id).Nodup)
    (m : Mutant) (hm : m ∈ mutants)
    (hout : m ∉ apply_coverage_subsumption thr estimator mutants) :
    ∃ a ∈ apply_coverage_subsumption thr estimator mutants,
      are_operators_related a.operator m.operator = true ∧
      coverage_of (map_mutant_coverage estimator mutants) m.id ⊆
        coverage_of (map_mutant_coverage estimator mutants) a.id ∧
      coverage_of (map_mutant_coverage estimator mutants) m.id ≠ ∅ ∧
      thr ≤ jaccard (coverage_of (map_mutant_coverage estimator mutants) a.id)
        (coverage_of (map_mutant_coverage estimator mutants) m.id) := by
  set cov := coverage_of (map_mutant_coverage estimator mutants) with hcov
  have hrem : m.id ∈ coverage_scan_all thr cov mutants ∅ := by
    by_contra hcon
    exact hout (List.mem_filter.mpr ⟨hm, by simpa using hcon⟩)
  rcases coverage_scan_all_sound thr cov mutants ∅ m.id hnd hrem with
    h | ⟨a, b, l1, l2, l3, heq, hxb, hchk, hnot⟩
  · exact absurd h (Finset.not_mem_empty _)
  have hamem : a ∈ mutants := by rw [heq]; simp
  have hbmem : b ∈ mutants := by rw [heq]; simp
  have hbm : b = m := mem_id_inj mutants hnd b m hbmem hm hxb.symm
  subst hbm
  exact ⟨a, List.mem_filter.mpr ⟨hamem, by simpa using hnot⟩,
    hchk.1, hchk.2.1, hchk.2.2.1, hchk.2.2.2⟩

/-- C5: running the coverage stage with threshold 0 never leaves more
survivors than running it with any other threshold on the same input. -/
theorem C5_threshold_monotone (estimator : Mutant → Finset String)
    (mutants : List Mutant) (t : ℚ) (ht : 0 ≤ t)
    (hnd : (mutants.map Mutant.id).Nodup) :
    (apply_coverage_subsumption 0 estimator mutants).length ≤
      (apply_coverage_subsumption t estimator mutants).length := by
  unfold apply_coverage_subsumption
  apply filter_length_mono
  intro m _ hp
  simp only [decide_eq_true_eq] at hp ⊢
  intro hmt
  exact hp (coverage_scan_all_threshold _ t mutants hnd m.id hmt)

/-- C5 witness: concrete application to a two-mutant input with the default
threshold 0.90. -/
theorem C5_witness :
    ((0 : ℚ) ≤ 0.9 ∧ (([cA, cB].map Mutant.id).Nodup) ∧
    (apply_coverage_subsumption 0 est0 [cA, cB]).length ≤
      (apply_coverage_subsumption 0.9 est0 [cA, cB]).length) :=
  ⟨by norm_num, by decide,
    C5_threshold_monotone est0 [cA, cB] 0.9 (by norm_num) (by decide)⟩

/-! ### Concrete evaluation of the coverage stage on the `cA`/`cB` input -/

theorem cov_eval_cA :
    coverage_of (map_mutant_coverage est0 [cA, cB]) cA.id = {"t1"} := by decide

theorem cov_eval_cB :
    coverage_of (map_mutant_coverage est0 [cA, cB]) cB.id = {"t1"} := by decide

theorem coverage_check_cAB :
    coverage_check 0.9 (coverage_of (map_mutant_coverage est0 [cA, cB])) cA cB := by
  refine ⟨by decide, ?_, ?_, ?_⟩
  · rw [cov_eval_cA, cov_eval_cB]
  · rw [cov_eval_cB]; simp
  · rw [cov_eval_cA, cov_eval_cB]
    simp only [jaccard, Finset.inter_self, Finset.union_self, Finset.card_singleton]
    norm_num

/-- On `[cA, cB]` with the constant estimator and threshold 0.90, the stage
removes `cB` (equal, hence mutually subsuming, coverage sets). -/
theorem coverage_run_eval :
    apply_coverage_subsumption 0.9 est0 [cA, cB] = [cA] := by
  have hid : cA.id ≠ cB.id := by decide
  unfold apply_coverage_subsumption
  have hscan :
      coverage_scan_all 0.9 (coverage_of (map_mutant_coverage est0 [cA, cB])) [cA, cB] ∅
        = {cB.id} := by
    simp [coverage_scan_all, coverage_scan, coverage_check_cAB]
  rw [hscan]
  simp [List.filter_cons, List.filter_nil, Finset.mem_singleton, hid]

/-- C4 counterexample: with equal non-empty coverage sets, `cB` is removed
by the stage at the default threshold although the only surviving mutant's
covering set is *not* a proper superset of `cB`'s — `issuperset` in the
source admits equality, refuting the "proper superset" claim. -/
theorem C4_counterexample :
    cB ∈ [cA, cB] ∧
    cB ∉ apply_coverage_subsumption 0.9 est0 [cA, cB] ∧
    apply_coverage_subsumption 0.9 est0 [cA, cB] = [cA] ∧
    coverage_of (map_mutant_coverage est0 [cA, cB]) cB.id =
      coverage_of (map_mutant_coverage est0 [cA, cB]) cA.id ∧
    coverage_of (map_mutant_coverage est0 [cA, cB]) cB.id ≠ ∅ ∧
    ¬ coverage_of (map_mutant_coverage est0 [cA, cB]) cB.id ⊂
        coverage_of (map_mutant_coverage est0 [cA, cB]) cA.id := by
  refine ⟨List.mem_cons_of_mem _ (List.mem_cons_self _ _), ?_, coverage_run_eval, ?_, ?_, ?_⟩
  · rw [coverage_run_eval]
    intro hmem
    have hideq := congrArg Mutant.id (List.mem_singleton.mp hmem)
    revert hideq
    decide
  · rw [cov_eval_cA, cov_eval_cB]
  · rw [cov_eval_cB]; simp
  · rw [cov_eval_cA, cov_eval_cB]
    simp

/-- C4 witness: concrete application of the amended theorem — the removed
`cB` has a surviving related mutant whose covering set is a (non-proper)
superset of its non-empty covering set with similarity above 0.90. -/
theorem C4_witness :
    ((([cA, cB].map Mutant.id).Nodup ∧ cB ∈ [cA, cB] ∧
      cB ∉ apply_coverage_subsumption 0.9 est0 [cA, cB]) ∧
    ∃ a ∈ apply_coverage_subsumption 0.9 est0 [cA, cB],
      are_operators_related a.operator cB.operator = true ∧
      coverage_of (map_mutant_coverage est0 [cA, cB]) cB.id ⊆
        coverage_of (map_mutant_coverage est0 [cA, cB]) a.id ∧
      coverage_of (map_mutant_coverage est0 [cA, cB]) cB.id ≠ ∅ ∧
      (0.9 : ℚ) ≤ jaccard (coverage_of (map_mutant_coverage est0 [cA, cB]) a.id)
        (coverage_of (map_mutant_coverage est0 [cA, cB]) cB.id)) := by
  have hout : cB ∉ apply_coverage_subsumption 0.9 est0 [cA, cB] := by
    rw [coverage_run_eval]
    intro hmem
    have hideq := congrArg Mutant.id (List.mem_singleton.mp hmem)
    revert hideq
    decide
  exact ⟨⟨by decide, List.mem_cons_of_mem _ (List.mem_cons_self _ _), hout⟩,
    C4_coverage_subsumption_sound 0.9 est0 [cA, cB] (by decide) cB
      (List.mem_cons_of_mem _ (List.mem_cons_self _ _)) hout⟩

end Impt
